import Mathlib

/-
  Verification of the bitmask utility (`BitMaskBase` in `Bitmask.cpp`).

  The C++ class `BitMaskBase<MaskType, OpType, TMax>` stores a single
  unsigned integer `Mask` of the storage type `MaskType`.  We embed a
  storage value as a natural number `m` together with the storage bit
  width `sw` (the number of bits of `MaskType`); a well-formed storage
  value satisfies `m < 2 ^ sw`.  The logical width `TMax` (written `w`
  below) is the template parameter; for `BitMask<T>` it defaults to the
  storage width, for `Enummask` it is the sentinel ordinal and can be
  smaller than the storage width.  Assignments back into the storage
  field truncate to `sw` bits, which we model with `% 2 ^ sw`.
-/

namespace BitMaskBase

/-- Embeds `IsBitValidPos`: `pos >= 0 && pos <= TMax` (the first template
argument pair is irrelevant; `TMax` is the enclosing template's width
parameter and `pos` is the `int` argument). -/
def IsBitValidPos (TMax pos : Int) : Bool :=
  decide (0 ≤ pos) && decide (pos ≤ TMax)

/-- Embeds the condition of the `static_assert(IsBitValidPos(TMax), ...)`
placed in the class body: the position checked is `TMax` itself. -/
def staticWidthCheck (TMax : Int) : Bool :=
  IsBitValidPos TMax TMax

/-- Embeds `SetBit`: `Mask |= (MaskType(1) << bitPos)`, the result being
stored back into the `sw`-bit field. -/
def SetBit (sw m p : Nat) : Nat :=
  (m ||| (1 <<< p)) % 2 ^ sw

/-- Embeds `ClearBit`: `Mask &= ~(MaskType(1) << bitPos)`; the complement
`~` is taken within the storage width, modelled as XOR with the all-ones
pattern `2 ^ sw - 1`. -/
def ClearBit (sw m p : Nat) : Nat :=
  m &&& ((2 ^ sw - 1) ^^^ (1 <<< p))

/-- Embeds `ToggleBit`: `Mask ^= (MaskType(1) << bitPos)`, stored back
into the `sw`-bit field. -/
def ToggleBit (sw m p : Nat) : Nat :=
  (m ^^^ (1 <<< p)) % 2 ^ sw

/-- Embeds `IsBitSet`: `(Mask & (MaskType(1) << pos)) != 0`. -/
def IsBitSet (m p : Nat) : Bool :=
  m &&& (1 <<< p) != 0

/-- Embeds `AnyBitSet`: `Mask != 0`. -/
def AnyBitSet (m : Nat) : Bool :=
  m != 0

/-- Embeds `AllBitsSet`: `Mask == std::numeric_limits<MaskType>::max()`,
i.e. comparison with the all-ones pattern of the full storage width. -/
def AllBitsSet (sw m : Nat) : Bool :=
  m == 2 ^ sw - 1

/-- Embeds the `CountSetBits` loop:
`while (tempMask != 0) { count += tempMask & 1; tempMask >>= 1; }`. -/
def CountSetBits (m : Nat) : Nat :=
  if h : m = 0 then 0 else (m &&& 1) + CountSetBits (m >>> 1)
termination_by m
decreasing_by
  simp only [Nat.shiftRight_succ, Nat.shiftRight_zero]
  exact Nat.div_lt_self (Nat.pos_of_ne_zero h) (by decide)

/-- Embeds the `IsBitNSet` loop, carrying the running `count`:
`while (tempMask != 0 && count < pos) { count += tempMask & 1; tempMask >>= 1; }`.
`count` and `pos` are C++ `int`s, modelled as `Int`. -/
def IsBitNSetGo (pos count : Int) (m : Nat) : Int :=
  if h : m ≠ 0 ∧ count < pos then
    IsBitNSetGo pos (count + (m &&& 1 : Nat)) (m >>> 1)
  else count
termination_by m
decreasing_by
  simp only [Nat.shiftRight_succ, Nat.shiftRight_zero]
  exact Nat.div_lt_self (Nat.pos_of_ne_zero h.1) (by decide)

/-- Embeds `IsBitNSet`: runs the counting loop from `count = 0` and
returns the final count (cast to `OpType` in the source). -/
def IsBitNSet (m : Nat) (pos : Int) : Int :=
  IsBitNSetGo pos 0 m

/-- Embeds `toBinaryString`: the loop `for (int i = TMax - 1; i >= 0; i--)`
appends `((value >> i) & 1) ? '1' : '0'`; the resulting string is the list
of characters produced for `i = w - 1, ..., 0` in that order. -/
def toBinaryString (w m : Nat) : List Char :=
  (List.range w).reverse.map (fun i => if (m >>> i) &&& 1 ≠ 0 then '1' else '0')

/-- Embeds `operator+` (and `operator+=`): `result.Mask = Mask | other.Mask`. -/
def combine (a b : Nat) : Nat :=
  a ||| b

/-- Embeds the default constructor: `BitMaskBase() : Mask(0)`. -/
def defaultMask : Nat := 0

/-- Models the documented intent of `IsAnyBitSetInRange`.  The written
body `(Mask & otherMask) != 0` does not compile when instantiated, because
`otherMask` is the whole `BitMaskBase` object and no `operator&` between
the storage integer and the class exists; the comment and the spec intend
`(Mask & otherMask.Mask) != 0`, which is what this definition embeds. -/
def IsAnyBitSetInRange (a b : Nat) : Bool :=
  a &&& b != 0

/-- Models the documented intent of `ClearBits`.  The written body
`(clearBit(args ...))` expands the parameter pack into a single call of a
nonexistent lowercase member `clearBit` and does not compile when
instantiated; the comment ("Clear mutliple bits."), the spec, and the
analogous `SetBits` fold `(SetBit(bits), ...)` intend applying `ClearBit`
to each position in order, which is what this definition embeds. -/
def ClearBits (sw : Nat) (m : Nat) (ps : List Nat) : Nat :=
  ps.foldl (fun acc p => ClearBit sw acc p) m

/-- Reading a single bit with the source's mask-and-test agrees with
`Nat.testBit`. -/
theorem isBitSet_eq_testBit (m p : Nat) : IsBitSet m p = Nat.testBit m p := by
  rw [IsBitSet, Nat.shiftLeft_eq, one_mul, Nat.and_two_pow]
  cases h : Nat.testBit m p <;> simp [Nat.pow_eq_zero]

/-- Shifting the queried mask right by one step moves every bit query down
by one position. -/
theorem isBitSet_succ (m p : Nat) : IsBitSet m (p + 1) = IsBitSet (m / 2) p := by
  rw [isBitSet_eq_testBit, isBitSet_eq_testBit, Nat.testBit_add_one]

theorem countSetBits_zero : CountSetBits 0 = 0 := by
  rw [CountSetBits]
  simp

/-- One unrolling of the `CountSetBits` loop, in arithmetic form. -/
theorem countSetBits_rec (m : Nat) : CountSetBits m = m % 2 + CountSetBits (m / 2) := by
  by_cases h : m = 0
  · subst h
    simp [countSetBits_zero]
  · conv_lhs => rw [CountSetBits]
    simp [h, Nat.and_one_is_mod, Nat.shiftRight_one]

/-- The loop count of `CountSetBits` agrees with counting, over the first
`n` bit positions, the positions reported set by `IsBitSet`, for any mask
value below `2 ^ n`. -/
theorem countSetBits_eq_countP :
    ∀ n m, m < 2 ^ n → CountSetBits m = (List.range n).countP (fun p => IsBitSet m p) := by
  intro n
  induction n with
  | zero =>
    intro m hm
    have : m = 0 := by simpa using Nat.lt_one_iff.mp (by simpa using hm)
    subst this
    simp [countSetBits_zero]
  | succ n ih =>
    intro m hm
    have hdiv : m / 2 < 2 ^ n := by
      have h2 : (2 : Nat) ^ (n + 1) = 2 * 2 ^ n := by
        rw [pow_succ]; ring
      omega
    have hfun : ((fun p => IsBitSet m p) ∘ Nat.succ) = fun q => IsBitSet (m / 2) q := by
      funext q
      simpa [Nat.succ_eq_add_one] using isBitSet_succ m q
    rw [List.range_succ_eq_map, List.countP_cons, List.countP_map, hfun, ← ih (m / 2) hdiv,
      countSetBits_rec m]
    rcases Nat.mod_two_eq_zero_or_one m with h | h <;>
      simp [isBitSet_eq_testBit, Nat.testBit_zero, h] <;> omega

/-- Closed form of the `IsBitNSet` loop for an arbitrary starting count:
the loop clamps `count + popcount` between the starting count and `pos`. -/
theorem isBitNSetGo_eq (pos : Int) :
    ∀ m count, IsBitNSetGo pos count m = max count (min pos (count + CountSetBits m)) := by
  intro m
  induction m using Nat.strong_induction_on with
  | _ m ih =>
    intro count
    rw [IsBitNSetGo]
    have hcsb : (0 : Int) ≤ CountSetBits m := Int.natCast_nonneg _
    split
    case isTrue h =>
      have hlt : m >>> 1 < m := by
        simp only [Nat.shiftRight_succ, Nat.shiftRight_zero]
        exact Nat.div_lt_self (Nat.pos_of_ne_zero h.1) (by decide)
      rw [ih (m >>> 1) hlt]
      have hrec : CountSetBits m = m % 2 + CountSetBits (m / 2) := countSetBits_rec m
      have hand : m &&& 1 = m % 2 := Nat.and_one_is_mod m
      have hshift : m >>> 1 = m / 2 := Nat.shiftRight_one m
      rw [hand, hshift]
      have hb : m % 2 ≤ 1 := by omega
      have hcount : count < pos := h.2
      have hc2 : (0 : Int) ≤ CountSetBits (m / 2) := Int.natCast_nonneg _
      rw [hrec]
      push_cast
      omega
    case isFalse h =>
      rw [not_and_or, not_not] at h
      rcases h with h | h
      · subst h
        rw [countSetBits_zero]
        push_cast
        omega
      · omega

/-- Closed form of `IsBitNSet`: the returned count is `pos` clamped into
`[0, CountSetBits]`. -/
theorem isBitNSet_eq (m : Nat) (pos : Int) :
    IsBitNSet m pos = max 0 (min pos (CountSetBits m)) := by
  rw [IsBitNSet, isBitNSetGo_eq]
  omega

/-- The character appended by the `toBinaryString` loop at shift `j` is
determined by `Nat.testBit` at position `j`. -/
theorem toBinaryChar (m j : Nat) :
    (if (m >>> j) &&& 1 ≠ 0 then '1' else '0') = (if Nat.testBit m j then '1' else '0') := by
  rcases Nat.mod_two_eq_zero_or_one (m >>> j) with h | h <;>
    simp [Nat.testBit, Nat.and_one_is_mod, Nat.one_and_eq_mod_two, h]

/-- The rendered string has exactly `w` characters. -/
theorem toBinaryString_length (w m : Nat) : (toBinaryString w m).length = w := by
  simp [toBinaryString]

/-- The character at index `i` (from the most significant end) of the
rendered string is `'1'` exactly when bit `w - 1 - i` is set. -/
theorem toBinaryString_getElem? (w m i : Nat) (h : i < w) :
    (toBinaryString w m)[i]? = some (if Nat.testBit m (w - 1 - i) then '1' else '0') := by
  rw [toBinaryString, List.getElem?_map,
    List.getElem?_reverse (by simpa using h)]
  simp only [List.length_range]
  rw [List.getElem?_range (by omega)]
  simp [toBinaryChar, Nat.testBit_to_div_mod, Nat.shiftRight_eq_div_pow]

/-- Storage bits at positions at or above `w` do not influence the
rendered string. -/
theorem toBinaryString_mod (w m : Nat) : toBinaryString w m = toBinaryString w (m % 2 ^ w) := by
  rw [toBinaryString, toBinaryString]
  apply List.map_congr_left
  intro a ha
  have haw : a < w := List.mem_range.mp (List.mem_reverse.mp ha)
  rw [toBinaryChar, toBinaryChar, Nat.testBit_mod_two_pow]
  simp [haw]

/-- Clearing bit `p` turns the query at a position `q` below the storage
width into `false` at `p` and leaves it unchanged elsewhere. -/
theorem isBitSet_clearBit (sw m p q : Nat) (hq : q < sw) :
    IsBitSet (ClearBit sw m p) q = if p = q then false else IsBitSet m q := by
  by_cases h : p = q <;>
    simp [ClearBit, isBitSet_eq_testBit, Nat.shiftLeft_eq, Nat.testBit_and, Nat.testBit_xor,
      Nat.testBit_two_pow_sub_one, Nat.testBit_two_pow, h, hq]

/-- Folding `ClearBit` over a list of positions clears exactly the listed
positions, as observed at any position below the storage width. -/
theorem clearBits_eq (sw : Nat) :
    ∀ (ps : List Nat) (m q : Nat), q < sw →
      IsBitSet (ClearBits sw m ps) q = (!ps.contains q && IsBitSet m q) := by
  intro ps
  induction ps with
  | nil =>
    intro m q hq
    simp [ClearBits]
  | cons p ps ih =>
    intro m q hq
    have hstep : ClearBits sw m (p :: ps) = ClearBits sw (ClearBit sw m p) ps := rfl
    rw [hstep, ih (ClearBit sw m p) q hq, isBitSet_clearBit sw m p q hq]
    by_cases h : p = q
    · simp [h, List.contains_cons]
    · have h' : q ≠ p := fun hh => h hh.symm
      simp [h, h', List.contains_cons]

/-- Claim C1, counterexample: the claim fails as stated.  Instantiating
the template with a logical width `W = 4` smaller than the storage width
(e.g. `Enummask<MyEnum, uint16_t>`, storage width 16) and raw-constructing
the reachable storage value 16 (bit 4 set), `CountSetBits()` returns 1
while no position in `[0, 4)` satisfies `IsBitSet`. -/
theorem claim_C1_counterexample :
    CountSetBits 16 ≠ (List.range 4).countP (fun p => IsBitSet 16 p) := by
  have h : CountSetBits 16 = (List.range 5).countP (fun p => IsBitSet 16 p) :=
    countSetBits_eq_countP 5 16 (by decide)
  rw [h]
  decide

/-- Claim C1 (amended): for every mask whose storage value fits in `n`
bits — in particular for `n` the storage type's bit width, which every
reachable storage value satisfies — `CountSetBits()` equals the number of
positions `p` in `[0, n)` for which `IsBitSet(p)` returns true.  The
count over the logical width `W` coincides with `CountSetBits()` exactly
when the storage value is below `2 ^ W`. -/
theorem claim_C1 (n m : Nat) (h : m < 2 ^ n) :
    CountSetBits m = (List.range n).countP (fun p => IsBitSet m p) :=
  countSetBits_eq_countP n m h

/-- Claim C1, witness at the storage width 8 and mask value 37. -/
theorem claim_C1_witness :
    CountSetBits 37 = (List.range 8).countP (fun p => IsBitSet 37 p) :=
  claim_C1 8 37 (by decide)

/-- Claim C2: `AllBitsSet()` returns true iff the storage equals the
all-ones pattern `2 ^ sw - 1` of the storage type's full bit width `sw`,
and when the logical width `w` is smaller than `sw` it returns false even
on the mask whose `w` logical bits are all 1. -/
theorem claim_C2 (sw w m : Nat) :
    (AllBitsSet sw m = true ↔ m = 2 ^ sw - 1) ∧
    (w < sw → AllBitsSet sw (2 ^ w - 1) = false) := by
  constructor
  · simp [AllBitsSet]
  · intro h
    have hpow : 2 ^ w < 2 ^ sw := Nat.pow_lt_pow_right (by decide) h
    have h1 : 0 < 2 ^ w := Nat.two_pow_pos w
    have hne : 2 ^ w - 1 ≠ 2 ^ sw - 1 := by omega
    simpa [AllBitsSet] using hne

/-- Claim C2, witness: storage width 8, logical width 4. -/
theorem claim_C2_witness : AllBitsSet 8 (2 ^ 4 - 1) = false :=
  (claim_C2 8 4 0).2 (by decide)

/-- Claim C3: `IsBitNSet(n)` returns the running count of the scan from
the least significant bit: when the mask has fewer than `n` set bits the
scan exhausts the bits and the returned count is `CountSetBits()`, which
is then less than `n`; when the mask has at least `n ≥ 0` set bits the
scan stops as soon as the running count reaches `n` and returns `n`. -/
theorem claim_C3 (m : Nat) (n : Int) :
    ((CountSetBits m : Int) < n → IsBitNSet m n = CountSetBits m) ∧
    (0 ≤ n → n ≤ (CountSetBits m : Int) → IsBitNSet m n = n) := by
  have h := isBitNSet_eq m n
  constructor
  · intro h1
    rw [h]
    omega
  · intro h1 h2
    rw [h]
    omega

/-- Claim C3, witness: the mask 5 has two set bits, so the scan with
`n = 10` exhausts the mask and returns the count 2 (less than 10), while
the scan with `n = 1` stops early and returns 1. -/
theorem claim_C3_witness :
    IsBitNSet 5 10 = (CountSetBits 5 : Int) ∧ IsBitNSet 5 1 = 1 := by
  have e : CountSetBits 5 = (List.range 3).countP (fun p => IsBitSet 5 p) :=
    countSetBits_eq_countP 3 5 (by decide)
  refine ⟨(claim_C3 5 10).1 ?_, (claim_C3 5 1).2 (by decide) ?_⟩ <;> rw [e] <;> decide

/-- Claim C4: `toBinaryString()` has exactly `w` characters; the
character at index `i` from the most significant end is `'1'` iff storage
bit `w - 1 - i` is set; and storage bits at positions `≥ w` do not
influence the string. -/
theorem claim_C4 (w m i : Nat) (h : i < w) :
    (toBinaryString w m).length = w ∧
    (toBinaryString w m)[i]? = some (if Nat.testBit m (w - 1 - i) then '1' else '0') ∧
    toBinaryString w m = toBinaryString w (m % 2 ^ w) :=
  ⟨toBinaryString_length w m, toBinaryString_getElem? w m i h, toBinaryString_mod w m⟩

/-- Claim C4, witness at width 8, mask 37, index 2. -/
theorem claim_C4_witness :
    (toBinaryString 8 37).length = 8 ∧
    (toBinaryString 8 37)[2]? = some (if Nat.testBit 37 (8 - 1 - 2) then '1' else '0') ∧
    toBinaryString 8 37 = toBinaryString 8 (37 % 2 ^ 8) :=
  claim_C4 8 37 2 (by decide)

/-- Claim C5 (intended semantics; the committed body of `ClearBits` does
not compile when instantiated, see `ClearBits`): applying `ClearBit` to
each listed position leaves every listed bit 0 and every other bit
unchanged. -/
theorem claim_C5 (sw w : Nat) (ps : List Nat) (m q : Nat) (hw : w ≤ sw) (hq : q < w) :
    (ps.contains q = true → IsBitSet (ClearBits sw m ps) q = false) ∧
    (ps.contains q = false → IsBitSet (ClearBits sw m ps) q = IsBitSet m q) := by
  have h := clearBits_eq sw ps m q (lt_of_lt_of_le hq hw)
  constructor <;> intro hc <;> rw [h, hc] <;> simp

/-- Claim C5, witness: clearing positions 1 and 2 of the mask 7. -/
theorem claim_C5_witness :
    IsBitSet (ClearBits 8 7 [1, 2]) 1 = false ∧
    IsBitSet (ClearBits 8 7 [1, 2]) 0 = IsBitSet 7 0 :=
  ⟨(claim_C5 8 8 [1, 2] 7 1 (by decide) (by decide)).1 (by decide),
   (claim_C5 8 8 [1, 2] 7 0 (by decide) (by decide)).2 (by decide)⟩

/-- Claim C6 (intended semantics; the committed body of
`IsAnyBitSetInRange` does not compile when instantiated, see
`IsAnyBitSetInRange`): the test returns true iff the bitwise AND of the
two storages is nonzero, i.e. iff some bit position is set in both. -/
theorem claim_C6 (a b : Nat) :
    (IsAnyBitSetInRange a b = true ↔ a &&& b ≠ 0) ∧
    (IsAnyBitSetInRange a b = true ↔ ∃ p, Nat.testBit a p = true ∧ Nat.testBit b p = true) := by
  have hbase : IsAnyBitSetInRange a b = true ↔ a &&& b ≠ 0 := by
    simp [IsAnyBitSetInRange]
  refine ⟨hbase, hbase.trans ⟨fun h => ?_, fun h => ?_⟩⟩
  · obtain ⟨i, hi⟩ := Nat.ne_zero_implies_bit_true h
    rw [Nat.testBit_and] at hi
    exact ⟨i, by simpa using hi⟩
  · obtain ⟨p, hpa, hpb⟩ := h
    intro h0
    have hb := congrArg (fun x => Nat.testBit x p) h0
    simp [Nat.testBit_and, hpa, hpb] at hb

/-- Claim C7: the static width check accepts every nonnegative width:
`IsBitValidPos(TMax)` instantiated at `pos = TMax` is `TMax >= 0 &&
TMax <= TMax`, a tautology for nonnegative `TMax`, so widths above the
storage type's bit count (e.g. `TMax = 100` with `uint8_t`) are not
rejected, contrary to the claim and to the assert's own message. -/
theorem claim_C7 (TMax : Int) (h : 0 ≤ TMax) : staticWidthCheck TMax = true := by
  simp [staticWidthCheck, IsBitValidPos, h]

/-- Claim C7, witness: the check passes at width 100, which exceeds the
8 bits of a `uint8_t` storage. -/
theorem claim_C7_witness : staticWidthCheck 100 = true :=
  claim_C7 100 (by decide)

/-- Claim C8: `operator+` (combine) is commutative, associative,
idempotent, and has the zero (default-constructed) mask as identity. -/
theorem claim_C8 (a b c : Nat) :
    combine a b = combine b a ∧
    combine (combine a b) c = combine a (combine b c) ∧
    combine a a = a ∧
    combine a defaultMask = a :=
  ⟨Nat.or_comm a b, Nat.or_assoc a b c, Nat.or_self a, Nat.or_zero a⟩

/-- Claim C9: `IsBitNSet(n)` returns 0 for every `n ≤ 0` and
`min n (CountSetBits())` for every `n ≥ 0`. -/
theorem claim_C9 (m : Nat) (n : Int) :
    (n ≤ 0 → IsBitNSet m n = 0) ∧
    (0 ≤ n → IsBitNSet m n = min n (CountSetBits m)) := by
  have h := isBitNSet_eq m n
  have hc : (0 : Int) ≤ CountSetBits m := Int.natCast_nonneg _
  constructor <;> intro hn <;> rw [h] <;> omega

/-- Claim C9, witness: mask 5 with `n = -3` and `n = 4`. -/
theorem claim_C9_witness :
    IsBitNSet 5 (-3) = 0 ∧ IsBitNSet 5 4 = min 4 ((CountSetBits 5 : Int)) :=
  ⟨(claim_C9 5 (-3)).1 (by decide), (claim_C9 5 4).2 (by decide)⟩

/-- Claim C10: each of `SetBit(p)`, `ClearBit(p)`, `ToggleBit(p)` leaves
`IsBitSet(q)` unchanged at every valid position `q ≠ p`. -/
theorem claim_C10 (sw w m p q : Nat) (hw : w ≤ sw) (hp : p < w) (hq : q < w) (hpq : p ≠ q) :
    IsBitSet (SetBit sw m p) q = IsBitSet m q ∧
    IsBitSet (ClearBit sw m p) q = IsBitSet m q ∧
    IsBitSet (ToggleBit sw m p) q = IsBitSet m q := by
  have hq' : q < sw := lt_of_lt_of_le hq hw
  refine ⟨?_, ?_, ?_⟩
  · simp [SetBit, isBitSet_eq_testBit, Nat.shiftLeft_eq, Nat.testBit_mod_two_pow,
      Nat.testBit_or, Nat.testBit_two_pow, hpq, hq']
  · rw [isBitSet_clearBit sw m p q hq']
    simp [hpq]
  · simp [ToggleBit, isBitSet_eq_testBit, Nat.shiftLeft_eq, Nat.testBit_mod_two_pow,
      Nat.testBit_xor, Nat.testBit_two_pow, hpq, hq']

/-- Claim C10, witness: storage and logical width 8, mask 37, mutated
position 1, observed position 3. -/
theorem claim_C10_witness :
    IsBitSet (SetBit 8 37 1) 3 = IsBitSet 37 3 ∧
    IsBitSet (ClearBit 8 37 1) 3 = IsBitSet 37 3 ∧
    IsBitSet (ToggleBit 8 37 1) 3 = IsBitSet 37 3 :=
  claim_C10 8 8 37 1 3 (by decide) (by decide) (by decide) (by decide)

end BitMaskBase
